import Mathlib

/-!
Verification development for the single-host SSH client driver
(pssh/ssh2_client.py).  The definitions below are shallow embeddings of the
functions of that file: byte strings become List Nat, the protocol engine
becomes explicit result sequences, and the remote filesystem becomes an
explicit state.  Source line references are given next to each definition.
-/

/-- Whitespace bytes removed by the strip call on byte strings:
space, tab, newline, carriage return, vertical tab, form feed. -/
def isSpaceByte (b : Nat) : Bool :=
  b = 32 || b = 9 || b = 10 || b = 13 || b = 11 || b = 12

/-- Embedding of bytes.strip(): drop whitespace bytes from both ends. -/
def stripBytes (l : List Nat) : List Nat :=
  ((l.dropWhile isSpaceByte).reverse.dropWhile isSpaceByte).reverse

/-- Helper for findSep: index (absolute, starting from idx) of the first
line-separator byte 10 in the list. -/
def findSepAux : List Nat → Nat → Option Nat
  | [], _ => none
  | b :: bs, idx => if b = 10 then some idx else findSepAux bs (idx + 1)

/-- Embedding of data.find(LINESEP, pos): absolute index of the first
separator byte at or after pos, none when absent (Python returns -1).
LINESEP is the byte 10: the client imports pwd and so only runs on POSIX,
where os.linesep is the single newline byte. -/
def findSep (data : List Nat) (pos : Nat) : Option Nat :=
  findSepAux (data.drop pos) pos

theorem findSepAux_bounds {l : List Nat} {idx i : Nat}
    (h : findSepAux l idx = some i) : idx ≤ i ∧ i < idx + l.length := by
  induction l generalizing idx with
  | nil => simp [findSepAux] at h
  | cons b bs ih =>
    by_cases hb : b = 10
    · simp [findSepAux, hb] at h
      simp only [List.length_cons]
      omega
    · simp [findSepAux, hb] at h
      have := ih h
      simp only [List.length_cons]
      omega

theorem findSep_bounds {data : List Nat} {pos i : Nat}
    (h : findSep data pos = some i) : pos ≤ i ∧ i < data.length := by
  have hb := findSepAux_bounds h
  rcases hb with ⟨h1, h2⟩
  constructor
  · exact h1
  · have hlen : (data.drop pos).length = data.length - pos := by
      simp
    omega

/-- Embedding of the inner scan loop of SSHClient._read_output
(ssh2_client.py lines 201-212).  State: the chunk currently scanned
(data), the carried remainder and the scan position.  Returns the lines
yielded while scanning this chunk together with the remainder left when
the scan stops.  Faithful points: the separator test is the Python
condition linesep > 0 on the absolute index; in the branch that merges a
non-empty remainder the position is not advanced (exactly as in the
source); the slice data[pos:linesep] is stripped before the remainder is
prepended. -/
def innerLoop (data : List Nat) (rem : List Nat) (pos : Nat) :
    List (List Nat) × List Nat :=
  if hlt : pos < data.length then
    match hf : findSep data pos with
    | some i =>
      if hi : 0 < i then
        if hr : rem = [] then
          let r := innerLoop data [] (i + 1)
          (stripBytes ((data.take i).drop pos) :: r.1, r.2)
        else
          let r := innerLoop data [] pos
          ((rem ++ stripBytes ((data.take i).drop pos)) :: r.1, r.2)
      else
        ([], rem ++ data.drop pos)
    | none =>
      ([], rem ++ data.drop pos)
  else
    ([], rem)
termination_by 2 * (data.length - pos) + (if rem = [] then 0 else 1)
decreasing_by
  · have hb := findSep_bounds hf
    subst hr
    simp only [if_pos rfl]
    omega
  · simp [hr]

/-- Result of one engine read call in _read_output: the would-block
sentinel (size LIBSSH2_ERROR_EAGAIN), end of stream (size 0), or a data
chunk (size = chunk length, positive). -/
inductive ReadRes where
  | eagain
  | eof
  | chunk (data : List Nat)
deriving DecidableEq

/-- True exactly for the would-block read result. -/
def isEagain : ReadRes → Bool
  | ReadRes.eagain => true
  | _ => false

/-- Embedding of the outer while loop of _read_output (lines 199-214):
process chunks while the read size is positive; a size that is not
positive - end of stream, but also a would-block sentinel arriving after
the first chunk - ends the generator.  Reading past the trace end is end
of stream. -/
def demuxLoop (rem : List Nat) : List ReadRes → List (List Nat)
  | [] => []
  | ReadRes.chunk d :: rest =>
    if d.isEmpty then []
    else
      let r := innerLoop d rem 0
      r.1 ++ demuxLoop r.2 rest
  | ReadRes.eagain :: _ => []
  | ReadRes.eof :: _ => []

/-- Embedding of _read_output (lines 191-214): the first read retries
through leading would-block results (lines 195-198), then the chunk loop
runs. -/
def readOutput (rs : List ReadRes) : List (List Nat) :=
  demuxLoop [] (rs.dropWhile isEagain)

theorem findSepAux_nosep {l : List Nat} (h : ∀ b ∈ l, b ≠ 10) (idx : Nat) :
    findSepAux l idx = none := by
  induction l generalizing idx with
  | nil => rfl
  | cons b bs ih =>
    have hb : b ≠ 10 := h b (by simp)
    simp only [findSepAux, if_neg hb]
    exact ih (fun x hx => h x (by simp [hx])) _

theorem findSep_nosep {data : List Nat} (h : ∀ b ∈ data, b ≠ 10) (pos : Nat) :
    findSep data pos = none :=
  findSepAux_nosep (fun b hb => h b (List.drop_subset pos data hb)) pos

theorem innerLoop_nosep {data : List Nat} (h : ∀ b ∈ data, b ≠ 10)
    (rem : List Nat) (pos : Nat) :
    innerLoop data rem pos = ([], rem ++ data.drop pos) := by
  rw [innerLoop]
  by_cases hlt : pos < data.length
  · simp only [dif_pos hlt]
    split
    · rename_i i hf
      rw [findSep_nosep h pos] at hf
      simp at hf
    · rfl
  · simp only [dif_neg hlt]
    have hd : data.drop pos = [] := by
      apply List.drop_eq_nil_of_le
      omega
    simp [hd]

theorem demuxLoop_trailing_nosep {c : List Nat} (hc : ∀ b ∈ c, b ≠ 10) :
    ∀ (cs : List (List Nat)) (rem : List Nat),
    demuxLoop rem (cs.map ReadRes.chunk ++ [ReadRes.chunk c]) =
      demuxLoop rem (cs.map ReadRes.chunk) := by
  intro cs
  induction cs with
  | nil =>
    intro rem
    simp only [List.map_nil, List.nil_append]
    by_cases hce : c.isEmpty
    · simp [demuxLoop, hce]
    · simp [demuxLoop, hce, innerLoop_nosep hc]
  | cons d ds ih =>
    intro rem
    by_cases hde : d.isEmpty
    · simp [demuxLoop, hde]
    · simp only [List.map_cons, List.cons_append, demuxLoop, hde, if_neg,
        Bool.false_eq_true, if_false, List.append_eq]
      rw [ih]

theorem readOutput_trailing_nosep (cs : List (List Nat)) (c : List Nat)
    (hc : ∀ b ∈ c, b ≠ 10) :
    readOutput (cs.map ReadRes.chunk ++ [ReadRes.chunk c]) =
      readOutput (cs.map ReadRes.chunk) := by
  unfold readOutput
  cases cs with
  | nil =>
    simp only [List.map_nil, List.nil_append]
    simpa [List.dropWhile, isEagain] using demuxLoop_trailing_nosep hc [] []
  | cons d ds =>
    simp only [List.map_cons, List.cons_append, List.dropWhile, isEagain]
    exact demuxLoop_trailing_nosep hc (d :: ds) []

theorem findSepAux_append_some {l : List Nat} {idx i : Nat} (t : List Nat)
    (h : findSepAux l idx = some i) : findSepAux (l ++ t) idx = some i := by
  induction l generalizing idx with
  | nil => simp [findSepAux] at h
  | cons b bs ih =>
    by_cases hb : b = 10
    · simp only [List.cons_append, findSepAux, if_pos hb] at h ⊢
      exact h
    · simp only [List.cons_append, findSepAux, if_neg hb] at h ⊢
      exact ih h

theorem findSepAux_append_none {l t : List Nat} {idx : Nat}
    (ht : ∀ b ∈ t, b ≠ 10) (h : findSepAux l idx = none) :
    findSepAux (l ++ t) idx = none := by
  induction l generalizing idx with
  | nil => simpa using findSepAux_nosep ht idx
  | cons b bs ih =>
    by_cases hb : b = 10
    · simp [findSepAux, hb] at h
    · simp only [List.cons_append, findSepAux, if_neg hb] at h ⊢
      exact ih h

theorem findSep_append_some {d : List Nat} {pos i : Nat} (t : List Nat)
    (hpos : pos ≤ d.length) (h : findSep d pos = some i) :
    findSep (d ++ t) pos = some i := by
  unfold findSep at h ⊢
  rw [List.drop_append_of_le_length hpos]
  exact findSepAux_append_some t h

theorem findSep_append_none {d t : List Nat} {pos : Nat}
    (ht : ∀ b ∈ t, b ≠ 10) (hpos : pos ≤ d.length) (h : findSep d pos = none) :
    findSep (d ++ t) pos = none := by
  unfold findSep at h ⊢
  rw [List.drop_append_of_le_length hpos]
  exact findSepAux_append_none ht h

theorem innerLoop_eq_sep_none (data rem : List Nat) (pos : Nat)
    (h : findSep data pos = none) :
    innerLoop data rem pos = ([], rem ++ data.drop pos) := by
  rw [innerLoop]
  by_cases hlt : pos < data.length
  · simp only [dif_pos hlt]
    split
    · rename_i i hf
      rw [h] at hf
      cases hf
    · rfl
  · simp only [dif_neg hlt]
    have hd : data.drop pos = [] := List.drop_eq_nil_of_le (by omega)
    simp [hd]

theorem innerLoop_eq_sep_zero (data rem : List Nat) (pos : Nat)
    (h : findSep data pos = some 0) :
    innerLoop data rem pos = ([], rem ++ data.drop pos) := by
  have hb := findSep_bounds h
  rw [innerLoop]
  have hlt : pos < data.length := by omega
  simp only [dif_pos hlt]
  split
  · rename_i i hf
    rw [h] at hf
    injection hf with hi0
    subst hi0
    simp
  · rfl

theorem innerLoop_eq_sep_pos_nil (data : List Nat) (pos i : Nat)
    (h : findSep data pos = some i) (hi : 0 < i) :
    innerLoop data [] pos =
      (stripBytes ((data.take i).drop pos) :: (innerLoop data [] (i + 1)).1,
        (innerLoop data [] (i + 1)).2) := by
  have hb := findSep_bounds h
  rw [innerLoop]
  have hlt : pos < data.length := by omega
  simp only [dif_pos hlt]
  split
  · rename_i j hf
    rw [h] at hf
    injection hf with hj
    subst hj
    simp [hi]
  · rename_i hf
    rw [h] at hf
    cases hf

theorem innerLoop_eq_sep_pos_cons (data rem : List Nat) (pos i : Nat)
    (h : findSep data pos = some i) (hi : 0 < i) (hrem : rem ≠ []) :
    innerLoop data rem pos =
      ((rem ++ stripBytes ((data.take i).drop pos)) :: (innerLoop data [] pos).1,
        (innerLoop data [] pos).2) := by
  have hb := findSep_bounds h
  rw [innerLoop]
  have hlt : pos < data.length := by omega
  simp only [dif_pos hlt]
  split
  · rename_i j hf
    rw [h] at hf
    injection hf with hj
    subst hj
    simp [hi, hrem]
  · rename_i hf
    rw [h] at hf
    cases hf

theorem innerLoop_append_nosep (t : List Nat) (ht : ∀ b ∈ t, b ≠ 10)
    (d rem : List Nat) (pos : Nat) (hpos : pos ≤ d.length) :
    (innerLoop (d ++ t) rem pos).1 = (innerLoop d rem pos).1 := by
  rcases hfd : findSep d pos with _ | i
  · have hft : findSep (d ++ t) pos = none := findSep_append_none ht hpos hfd
    rw [innerLoop_eq_sep_none _ _ _ hft, innerLoop_eq_sep_none _ _ _ hfd]
  · have hb := findSep_bounds hfd
    have hft : findSep (d ++ t) pos = some i := findSep_append_some t hpos hfd
    have htake : (d ++ t).take i = d.take i :=
      List.take_append_of_le_length (by omega)
    by_cases hi : 0 < i
    · by_cases hrem : rem = []
      · subst hrem
        rw [innerLoop_eq_sep_pos_nil _ _ _ hft hi,
          innerLoop_eq_sep_pos_nil _ _ _ hfd hi, htake,
          innerLoop_append_nosep t ht d [] (i + 1) (by omega)]
      · rw [innerLoop_eq_sep_pos_cons _ _ _ _ hft hi hrem,
          innerLoop_eq_sep_pos_cons _ _ _ _ hfd hi hrem, htake,
          innerLoop_append_nosep t ht d [] pos hpos]
    · have hi0 : i = 0 := by omega
      subst hi0
      rw [innerLoop_eq_sep_zero _ _ _ hft, innerLoop_eq_sep_zero _ _ _ hfd]
termination_by 2 * (d.length - pos) + (if rem = [] then 0 else 1)
decreasing_by
  · simp only [reduceIte]
    omega
  · simp only [reduceIte, if_neg hrem]
    omega

theorem demuxLoop_append_nosep (t : List Nat) (ht : ∀ b ∈ t, b ≠ 10) :
    ∀ (cs : List (List Nat)) (d : List Nat) (rem : List Nat),
    demuxLoop rem ((cs ++ [d ++ t]).map ReadRes.chunk) =
      demuxLoop rem ((cs ++ [d]).map ReadRes.chunk) := by
  intro cs
  induction cs with
  | nil =>
    intro d rem
    cases d with
    | nil =>
      cases t with
      | nil => rfl
      | cons b bs =>
        simp only [List.nil_append, List.map_cons, List.map_nil, demuxLoop,
          List.isEmpty_cons, Bool.false_eq_true, if_false, List.isEmpty_nil,
          if_true]
        rw [innerLoop_nosep ht]
        simp [demuxLoop]
    | cons x xs =>
      simp only [List.nil_append, List.map_cons, List.map_nil, List.cons_append,
        demuxLoop, List.isEmpty_cons, Bool.false_eq_true, if_false]
      have hmain := innerLoop_append_nosep t ht (x :: xs) rem 0 (Nat.zero_le _)
      rw [List.cons_append] at hmain
      rw [hmain]
  | cons c cs ih =>
    intro d rem
    by_cases hc : c.isEmpty
    · simp [demuxLoop, hc]
    · simp only [List.cons_append, List.map_cons, demuxLoop, hc,
        Bool.false_eq_true, if_false, List.append_eq]
      rw [ih]

theorem dropWhile_isEagain_chunks (l : List (List Nat)) :
    (l.map ReadRes.chunk).dropWhile isEagain = l.map ReadRes.chunk := by
  cases l with
  | nil => rfl
  | cons c cs => simp [List.dropWhile, isEagain]

theorem readOutput_append_nosep (cs : List (List Nat)) (d t : List Nat)
    (ht : ∀ b ∈ t, b ≠ 10) :
    readOutput ((cs ++ [d ++ t]).map ReadRes.chunk) =
      readOutput ((cs ++ [d]).map ReadRes.chunk) := by
  unfold readOutput
  rw [dropWhile_isEagain_chunks, dropWhile_isEagain_chunks]
  exact demuxLoop_append_nosep t ht cs d []

/-- C1: the claim says chunks "hello\nwor" then "ld\n" with newline as
separator yield exactly the lines hello and world, each exactly once.
The code instead yields three lines: hello, world, and then ld a second
time, because the scan position is not advanced after the yield that
merges a non-empty remainder (ssh2_client.py line 205), so the same
separator is found again on the next pass.  Bytes: hello = 104 101 108
108 111, wor = 119 111 114, ld = 108 100. -/
theorem readOutput_split_line_duplicated :
    readOutput [ReadRes.chunk [104, 101, 108, 108, 111, 10, 119, 111, 114],
      ReadRes.chunk [108, 100, 10]] =
      [[104, 101, 108, 108, 111], [119, 111, 114, 108, 100], [108, 100]] := by
  simp [readOutput, demuxLoop, innerLoop, findSep, findSepAux, stripBytes, isSpaceByte,
    List.dropWhile, isEagain]

/-- C2: the claim says a would-block result from any chunk read inside
the output demultiplexer, including reads after the first, causes a
retry.  In the code only the first read retries (lines 195-198); a
would-block size returned later fails the `while size > 0` test
(line 199) and ends the generator, so the data after it - here the line
b (98) - is silently lost instead of being read after a retry. -/
theorem readOutput_eagain_midstream :
    readOutput [ReadRes.chunk [97, 10], ReadRes.eagain, ReadRes.chunk [98, 10]] =
      [[97]] := by
  simp [readOutput, demuxLoop, innerLoop, findSep, findSepAux, stripBytes, isSpaceByte,
    List.dropWhile, isEagain]

/-- C10: at end of stream the demultiplexer discards the accumulated
remainder, so bytes after the last line separator are never yielded:
appending a whole final chunk that contains no separator byte never
changes the yielded lines; appending a separator-free tail to the final
chunk itself - covering trailing bytes that share their chunk with a
separator - never changes the yielded lines either; a non-empty stream
with no separator at all yields no lines; and the single chunk with
bytes a, newline, b yields only the line a, the trailing b being
discarded. -/
theorem readOutput_discards_trailing_remainder :
    (∀ (cs : List (List Nat)) (c : List Nat), (∀ b ∈ c, b ≠ 10) →
      readOutput (cs.map ReadRes.chunk ++ [ReadRes.chunk c]) =
        readOutput (cs.map ReadRes.chunk))
    ∧ (∀ (cs : List (List Nat)) (d t : List Nat), (∀ b ∈ t, b ≠ 10) →
      readOutput ((cs ++ [d ++ t]).map ReadRes.chunk) =
        readOutput ((cs ++ [d]).map ReadRes.chunk))
    ∧ readOutput [ReadRes.chunk [97, 98, 99]] = []
    ∧ readOutput [ReadRes.chunk [97, 10, 98]] = [[97]] := by
  refine ⟨?_, ?_, ?_, ?_⟩
  · exact readOutput_trailing_nosep
  · exact fun cs d t ht => readOutput_append_nosep cs d t ht
  · have h := readOutput_trailing_nosep [] [97, 98, 99] (by decide)
    simpa [readOutput, demuxLoop] using h
  · simp [readOutput, demuxLoop, innerLoop, findSep, findSepAux, stripBytes,
      isSpaceByte, List.dropWhile, isEagain]

/-- Witness for C10 at concrete inputs: a trailing separator-free chunk
and a separator-free tail inside a separator-bearing final chunk. -/
theorem readOutput_discards_trailing_remainder_witness :
    ((∀ b ∈ ([98, 99] : List Nat), b ≠ 10) ∧
      readOutput [ReadRes.chunk [97, 10], ReadRes.chunk [98, 99]] =
        readOutput [ReadRes.chunk [97, 10]]) ∧
    ((∀ b ∈ ([98] : List Nat), b ≠ 10) ∧
      readOutput [ReadRes.chunk [97, 10, 98]] =
        readOutput [ReadRes.chunk [97, 10]]) :=
  ⟨⟨by decide,
      readOutput_discards_trailing_remainder.1 [[97, 10]] [98, 99] (by decide)⟩,
    ⟨by decide,
      readOutput_discards_trailing_remainder.2.1 [] [97, 10] [98] (by decide)⟩⟩

/-- An individual credential attempt made by the auth chain. -/
inductive Attempt where
  | pkeyA (path : String)
  | agentA
  | identityA (path : String)
  | passwordA
deriving DecidableEq

/-- Configuration and engine oracle for the auth chain: the optional
explicit key path, the allow-agent flag, the optional password, the
identity-file candidate list (IDENTITIES, lines 52-56), which candidate
paths exist on disk (the os.path.isfile test of line 121), and the
engine verdict for each attempt (true = authenticated, false = the
engine call raised or rejected). -/
structure AuthCfg where
  pkey : Option String
  allowAgent : Bool
  password : Option String
  identities : List String
  isFile : String → Bool
  engine : Attempt → Bool

/-- Embedding of _identity_auth (ssh2_client.py lines 119-143): scan
the candidate list, skipping paths that are not files, try each file
through the pump, continue past per-file failures and stop at the first
success.  Returns the attempts made and whether one succeeded (false
means AuthenticationException is raised). -/
def identityAuth (cfg : AuthCfg) : List String → List Attempt × Bool
  | [] => ([], false)
  | f :: rest =>
    if cfg.isFile f then
      if cfg.engine (Attempt.identityA f) then ([Attempt.identityA f], true)
      else
        let r := identityAuth cfg rest
        (Attempt.identityA f :: r.1, r.2)
    else identityAuth cfg rest

/-- Embedding of the fallback tail of auth (lines 160-166): the
identity scan, then password auth only when the scan failed and a
password was supplied; with no password the identity failure
propagates. -/
def authFallback (cfg : AuthCfg) (pre : List Attempt) : List Attempt × Bool :=
  let r := identityAuth cfg cfg.identities
  if r.2 then (pre ++ r.1, true)
  else
    match cfg.password with
    | none => (pre ++ r.1, false)
    | some _ => (pre ++ r.1 ++ [Attempt.passwordA], cfg.engine Attempt.passwordA)

/-- Embedding of auth (lines 145-166): the explicit key is tried alone
when configured (its failure is raised, no fallback); else agent auth
when allowed, whose failure is non-fatal; else the fallback tail.
Returns the attempts made in order and the overall outcome. -/
def auth (cfg : AuthCfg) : List Attempt × Bool :=
  match cfg.pkey with
  | some p => ([Attempt.pkeyA p], cfg.engine (Attempt.pkeyA p))
  | none =>
    if cfg.allowAgent then
      if cfg.engine Attempt.agentA then ([Attempt.agentA], true)
      else authFallback cfg [Attempt.agentA]
    else authFallback cfg []

theorem identityAuth_all_fail {cfg : AuthCfg}
    (h : ∀ a, cfg.engine a = false) :
    ∀ fs, (identityAuth cfg fs).2 = false := by
  intro fs
  induction fs with
  | nil => rfl
  | cons f rest ih =>
    by_cases hf : cfg.isFile f
    · simp [identityAuth, hf, h (Attempt.identityA f), ih]
    · simp [identityAuth, hf, ih]

/-- C4: the auth chain evaluates methods in the fixed order: explicit
key alone with no fallback; else agent (failure non-fatal), then the
identity candidates in order continuing past failures and stopping at
the first success, then password only as the last resort.  In the
scenario where agent fails and the second identity file succeeds the
attempts are exactly agent, identity 1, identity 2, and password is
never attempted; when every method fails the chain fails. -/
theorem auth_chain_order (cfg : AuthCfg) :
    (∀ p, cfg.pkey = some p →
      auth cfg = ([Attempt.pkeyA p], cfg.engine (Attempt.pkeyA p)))
    ∧ (∀ f1 f2 f3, cfg.pkey = none → cfg.allowAgent = true →
        cfg.identities = [f1, f2, f3] →
        cfg.isFile f1 = true → cfg.isFile f2 = true →
        cfg.engine Attempt.agentA = false →
        cfg.engine (Attempt.identityA f1) = false →
        cfg.engine (Attempt.identityA f2) = true →
        auth cfg = ([Attempt.agentA, Attempt.identityA f1,
          Attempt.identityA f2], true))
    ∧ ((∀ a, cfg.engine a = false) → (auth cfg).2 = false) := by
  refine ⟨?_, ?_, ?_⟩
  · intro p hp
    simp [auth, hp]
  · intro f1 f2 f3 hp ha hid h1 h2 he hf1 hf2
    simp [auth, hp, ha, he, authFallback, hid, identityAuth, h1, h2, hf1, hf2]
  · intro h
    rcases hk : cfg.pkey with _ | p
    · have hfb : ∀ pre, (authFallback cfg pre).2 = false := by
        intro pre
        simp only [authFallback, identityAuth_all_fail h]
        cases hpw : cfg.password <;> simp [h Attempt.passwordA]
      by_cases ha : cfg.allowAgent
      · simp [auth, hk, ha, h Attempt.agentA, hfb]
      · simp [auth, hk, ha, hfb]
    · simp [auth, hk, h]

/-- Engine oracle for the C4 witness: only the second identity file
authenticates. -/
def witnessEngine : Attempt → Bool
  | Attempt.identityA f => f == "id_dsa"
  | _ => false

/-- Configuration for the C4 witness: no explicit key, agent allowed,
a password supplied, three identity candidates all present on disk. -/
def witnessCfg : AuthCfg :=
  { pkey := none
    allowAgent := true
    password := some "pw"
    identities := ["id_rsa", "id_dsa", "identity"]
    isFile := fun _ => true
    engine := witnessEngine }

/-- Witness for C4 at the concrete mock-engine scenario. -/
theorem auth_chain_order_witness :
    auth witnessCfg = ([Attempt.agentA, Attempt.identityA "id_rsa",
      Attempt.identityA "id_dsa"], true) :=
  (auth_chain_order witnessCfg).2.1 "id_rsa" "id_dsa" "identity"
    rfl rfl rfl rfl rfl rfl (by decide) (by decide)

/-- Connection failure record: the arguments of the
ConnectionErrorException raised at lines 103-106 - host, port, the OS
error code of the last attempt, the attempt counter at failure and the
configured retry bound. -/
structure ConnErr where
  host : String
  port : Nat
  errCode : Nat
  attempts : Nat
  maxRetries : Nat
deriving DecidableEq

/-- Embedding of _connect (lines 93-106) from a given attempt counter.
outcome r is none when attempt number r succeeds and some errCode when
it fails.  On failure the code sleeps and retries with counter + 1
while the counter is below num_retries, else raises with the error of
the last failed attempt.  Success returns the counter, which equals the
number of attempts made when the counter started at 1. -/
def connectFrom (host : String) (port numRetries : Nat)
    (outcome : Nat → Option Nat) (retries : Nat) : Except ConnErr Nat :=
  match outcome retries with
  | none => Except.ok retries
  | some e =>
    if h : retries < numRetries then
      connectFrom host port numRetries outcome (retries + 1)
    else Except.error ⟨host, port, e, retries, numRetries⟩
termination_by numRetries - retries
decreasing_by omega

/-- Embedding of the public _connect entry (line 93): the attempt
counter starts at 1. -/
def connect (host : String) (port numRetries : Nat)
    (outcome : Nat → Option Nat) : Except ConnErr Nat :=
  connectFrom host port numRetries outcome 1

theorem connectFrom_ok (host : String) (port n : Nat)
    (outcome : Nat → Option Nat) (k r : Nat) (hkn : k ≤ n)
    (hk : outcome k = none) (hrk : r ≤ k)
    (hfail : ∀ j, r ≤ j → j < k → outcome j ≠ none) :
    connectFrom host port n outcome r = Except.ok k := by
  rw [connectFrom]
  split
  · rename_i heq
    by_cases hr : r = k
    · rw [hr]
    · exact absurd heq (hfail r le_rfl (lt_of_le_of_ne hrk hr))
  · rename_i e heq
    have hr : r ≠ k := by
      intro h
      rw [h, hk] at heq
      cases heq
    have hlt : r < k := lt_of_le_of_ne hrk hr
    rw [dif_pos (show r < n by omega)]
    exact connectFrom_ok host port n outcome k (r + 1) hkn hk hlt
      (fun j hj1 hj2 => hfail j (by omega) hj2)
termination_by k - r
decreasing_by omega

theorem connectFrom_fails (host : String) (port n : Nat)
    (outcome : Nat → Option Nat) (e : Nat) (hn : outcome n = some e)
    (r : Nat) (hrn : r ≤ n)
    (hfail : ∀ j, r ≤ j → j ≤ n → outcome j ≠ none) :
    connectFrom host port n outcome r = Except.error ⟨host, port, e, n, n⟩ := by
  rw [connectFrom]
  split
  · rename_i heq
    exact absurd heq (hfail r le_rfl hrn)
  · rename_i e2 heq
    by_cases h : r < n
    · rw [dif_pos h]
      exact connectFrom_fails host port n outcome e hn (r + 1) h
        (fun j hj1 hj2 => hfail j (by omega) hj2)
    · rw [dif_neg h]
      have hr : r = n := by omega
      subst hr
      rw [hn] at heq
      injection heq with he
      rw [he]
termination_by n - r
decreasing_by omega

/-- C5: for maxRetries at least 1, the transport establisher makes at
most maxRetries connect attempts; a success at attempt k (the earlier
attempts all failing) returns after exactly k attempts, and when the
first maxRetries attempts all fail it raises the connection error after
exactly maxRetries attempts, carrying host, port, the attempt count and
the OS error code of the last attempt. -/
theorem connect_retry_spec (host : String) (port n : Nat) (hn : 1 ≤ n)
    (outcome : Nat → Option Nat) :
    (∀ k, 1 ≤ k → k ≤ n → outcome k = none →
      (∀ j, 1 ≤ j → j < k → outcome j ≠ none) →
      connect host port n outcome = Except.ok k)
    ∧ (∀ e, outcome n = some e →
      (∀ j, 1 ≤ j → j ≤ n → outcome j ≠ none) →
      connect host port n outcome = Except.error ⟨host, port, e, n, n⟩) := by
  constructor
  · intro k h1 h2 h3 h4
    exact connectFrom_ok host port n outcome k 1 h2 h3 h1 h4
  · intro e he hfail
    exact connectFrom_fails host port n outcome e he 1 hn hfail

/-- Outcome trace for the C5 witness: attempts 1 and 2 fail with OS
error 111, attempt 3 and later succeed. -/
def outcome23 : Nat → Option Nat := fun j => if j ≤ 2 then some 111 else none

/-- Witness for C5: with the trace above, maxRetries 3 succeeds after
exactly 3 attempts and maxRetries 2 fails after exactly 2 attempts. -/
theorem connect_retry_spec_witness :
    connect "example.com" 22 3 outcome23 = Except.ok 3 ∧
    connect "example.com" 22 2 outcome23 =
      Except.error ⟨"example.com", 22, 111, 2, 2⟩ :=
  ⟨(connect_retry_spec "example.com" 22 3 (by decide) outcome23).1 3 (by decide)
      (by decide) (by decide)
      (by intro j h1 h2; interval_cases j <;> decide),
    (connect_retry_spec "example.com" 22 2 (by decide) outcome23).2 111
      (by decide)
      (by intro j h1 h2; interval_cases j <;> decide)⟩

/-- The libssh2 would-block error code LIBSSH2_ERROR_EAGAIN. -/
def EAGAIN : Int := -37

/-- Embedding of _sftp_openfh (lines 452-463) over the sequence of
engine call results, each the pair of the optional handle returned by
the open call and the value of session.last_errno() after it.  The loop
retries while no handle was returned and the errno is the would-block
code; once it stops, SFTPError naming the remote path and the errno is
raised when the errno is not the would-block code, else the handle is
returned.  The value none models an engine that never leaves the retry
loop. -/
def sftpOpenfh (remoteFile : String) :
    List (Option Nat × Int) → Option (Except (String × Int) (Option Nat))
  | [] => none
  | (fh, errno) :: rest =>
    if fh = none ∧ errno = EAGAIN then sftpOpenfh remoteFile rest
    else some (if errno ≠ EAGAIN then Except.error (remoteFile, errno)
      else Except.ok fh)

/-- C3 counterexample: when the engine returns a handle (7) together
with a definitive success errno (0) on the first call, the helper
raises SFTPError instead of returning the handle, because the final
check raises whenever the errno differs from the would-block code
(line 459), refuting the claim that an engine-returned handle is always
passed to the caller without raising. -/
theorem sftpOpenfh_claim_counterexample :
    sftpOpenfh "remote.txt" [(some 7, 0)] =
      some (Except.error ("remote.txt", 0)) := by
  simp [sftpOpenfh, EAGAIN]

/-- C3 (amended): the helper consumes any run of results carrying no
handle and the would-block errno, then terminates at the first other
result: it raises SFTPError naming the path and the errno whenever that
final errno is not the would-block code - even when a handle was
returned - and it returns the handle only when the final errno is still
the would-block code. -/
theorem sftpOpenfh_amended (remoteFile : String)
    (pre : List (Option Nat × Int)) (fh : Option Nat) (errno : Int)
    (rest : List (Option Nat × Int))
    (hpre : ∀ r ∈ pre, r = (none, EAGAIN))
    (hstop : ¬(fh = none ∧ errno = EAGAIN)) :
    sftpOpenfh remoteFile (pre ++ (fh, errno) :: rest) =
      some (if errno ≠ EAGAIN then Except.error (remoteFile, errno)
        else Except.ok fh) := by
  induction pre with
  | nil =>
    simp only [List.nil_append, sftpOpenfh, if_neg hstop]
  | cons q qs ih =>
    have hq : q = (none, EAGAIN) := hpre q (by simp)
    subst hq
    simpa [sftpOpenfh] using ih (fun r hr => hpre r (by simp [hr]))

/-- Witness for the amended C3 theorem: one would-block report followed
by a handle with the sticky would-block errno makes the helper return
the handle. -/
theorem sftpOpenfh_amended_witness :
    sftpOpenfh "data.bin" [(none, EAGAIN), (some 5, EAGAIN)] =
      some (Except.ok (some 5)) := by
  have h := sftpOpenfh_amended "data.bin" [(none, EAGAIN)] (some 5) EAGAIN []
    (by simp) (by simp)
  simpa using h

/-- Helper for splitSlash, scanning the characters with the segment
read so far. -/
def splitSlashAux : List Char → List Char → List String
  | [], acc => [String.mk acc.reverse]
  | c :: cs, acc =>
    if c = '/' then String.mk acc.reverse :: splitSlashAux cs []
    else splitSlashAux cs (c :: acc)

/-- Embedding of file_path.split on the path separator, Python
semantics: an empty path gives one empty segment, a leading or trailing
separator an empty segment at that end. -/
def splitSlash (s : String) : List String := splitSlashAux s.data []

/-- Embedding of _remote_paths_split (lines 495-502): the path is split
on the separator, empty segments are removed, the last segment is
dropped and the rest joined back with the separator.  An absolute path
has an empty first segment, which the filter removes, so the leading
separator is lost. -/
def remotePathsSplit (filePath : String) : String :=
  "/".intercalate (((splitSlash filePath).filter (fun d => d ≠ "")).dropLast)

/-- Follows the specification wording for the directory that will
contain the opened file: the remote path up to, not including, its
final path separator, with a leading separator preserved. -/
def specParentDir (filePath : String) : String :=
  "/".intercalate ((splitSlash filePath).dropLast)

/-- C6: the claim says the parent path probed - and created by the
mkdir chain on a failed probe - before sftp_put opens the write handle
is the directory that will contain the opened file, for relative and
absolute destinations alike.  For the absolute destination
/tmp/dir/file the probed and created path is tmp/dir, a path relative
to the SFTP working directory, because _remote_paths_split drops the
leading separator, while the handle is opened at /tmp/dir/file whose
containing directory is /tmp/dir. -/
theorem remotePathsSplit_absolute_path_bug :
    remotePathsSplit "/tmp/dir/file" = "tmp/dir" ∧
    specParentDir "/tmp/dir/file" = "/tmp/dir" ∧
    remotePathsSplit "/tmp/dir/file" ≠ specParentDir "/tmp/dir/file" := by
  refine ⟨by decide, by decide, by decide⟩

/-- The joined probe path of the mkdir chain (lines 373-374): the head
component alone at top level, else the accumulated parent joined with
the separator. -/
def joinParent (parent : Option String) (p : String) : String :=
  match parent with
  | none => p
  | some pp => pp ++ "/" ++ p

/-- Embedding of mkdir (lines 356-382) over a remote state, the list
of existing remote paths: the stat probe succeeds exactly when the
joined path is in the state, and _mkdir (lines 291-314) adds the
created path.  The directory argument is embedded as its list of
separator-separated components, since mkdir splits off the first
component and recurses on the joined rest.  Returns the new state and
the list of directories created, in order. -/
def mkdirChain (st : List String) : List String → Option String → List String × List String
  | [], _ => (st, [])
  | p :: rest, parent =>
    if joinParent parent p ∈ st then
      mkdirChain st rest (some (joinParent parent p))
    else
      ((mkdirChain (joinParent parent p :: st) rest (some (joinParent parent p))).1,
        joinParent parent p ::
          (mkdirChain (joinParent parent p :: st) rest (some (joinParent parent p))).2)

/-- The probe paths visited by the mkdir chain, in order. -/
def segDirs : List String → Option String → List String
  | [], _ => []
  | p :: rest, parent => joinParent parent p :: segDirs rest (some (joinParent parent p))

theorem mkdirChain_mono (comps : List String) :
    ∀ (parent : Option String) (st : List String) (x : String),
    x ∈ st → x ∈ (mkdirChain st comps parent).1 := by
  induction comps with
  | nil =>
    intro parent st x hx
    simpa [mkdirChain] using hx
  | cons p rest ih =>
    intro parent st x hx
    by_cases hd : joinParent parent p ∈ st
    · simp only [mkdirChain, if_pos hd]
      exact ih _ st x hx
    · simp only [mkdirChain, if_neg hd]
      exact ih _ _ x (List.mem_cons_of_mem _ hx)

theorem mkdirChain_created_fresh (comps : List String) :
    ∀ (parent : Option String) (st : List String) (d : String),
    d ∈ (mkdirChain st comps parent).2 → d ∉ st := by
  induction comps with
  | nil =>
    intro parent st d hd
    simp [mkdirChain] at hd
  | cons p rest ih =>
    intro parent st d hd
    by_cases hdir : joinParent parent p ∈ st
    · simp only [mkdirChain, if_pos hdir] at hd
      exact ih _ st d hd
    · simp only [mkdirChain, if_neg hdir] at hd
      rcases List.mem_cons.mp hd with h1 | h2
      · subst h1
        exact hdir
      · intro hst
        exact ih _ _ d h2 (List.mem_cons_of_mem _ hst)

theorem mkdirChain_complete (comps : List String) :
    ∀ (parent : Option String) (st : List String) (d : String),
    d ∈ segDirs comps parent → d ∈ (mkdirChain st comps parent).1 := by
  induction comps with
  | nil =>
    intro parent st d hd
    simp [segDirs] at hd
  | cons p rest ih =>
    intro parent st d hd
    rcases List.mem_cons.mp hd with h1 | h2
    · subst h1
      by_cases hdir : joinParent parent p ∈ st
      · simp only [mkdirChain, if_pos hdir]
        exact mkdirChain_mono rest _ st _ hdir
      · simp only [mkdirChain, if_neg hdir]
        exact mkdirChain_mono rest _ _ _ (by simp)
    · by_cases hdir : joinParent parent p ∈ st
      · simp only [mkdirChain, if_pos hdir]
        exact ih _ st d h2
      · simp only [mkdirChain, if_neg hdir]
        exact ih _ _ d h2

theorem mkdirChain_idem (comps : List String) :
    ∀ (parent : Option String) (st : List String),
    mkdirChain (mkdirChain st comps parent).1 comps parent =
      ((mkdirChain st comps parent).1, []) := by
  induction comps with
  | nil =>
    intro parent st
    simp [mkdirChain]
  | cons p rest ih =>
    intro parent st
    by_cases hdir : joinParent parent p ∈ st
    · simp only [mkdirChain, if_pos hdir]
      have hmem : joinParent parent p ∈
          (mkdirChain st rest (some (joinParent parent p))).1 :=
        mkdirChain_mono rest _ st _ hdir
      simp only [if_pos hmem]
      exact ih _ st
    · simp only [mkdirChain, if_neg hdir]
      have hmem : joinParent parent p ∈
          (mkdirChain (joinParent parent p :: st) rest (some (joinParent parent p))).1 :=
        mkdirChain_mono rest _ _ _ (by simp)
      simp only [if_pos hmem]
      exact ih _ _

/-- C7: the mkdir chain is idempotent and non-destructive: rerunning it
over the state produced by a first run performs no creation call and
changes nothing - hence no error, since the only failure path of _mkdir
is a failing remote creation call; every directory created by a run was
missing from the initial state (no creation is issued for a segment
whose probe succeeds); and after a run every probed segment path
exists, left to right. -/
theorem mkdir_chain_idempotent (st comps : List String) (parent : Option String) :
    mkdirChain (mkdirChain st comps parent).1 comps parent =
      ((mkdirChain st comps parent).1, []) ∧
    (∀ d, d ∈ (mkdirChain st comps parent).2 → d ∉ st) ∧
    (∀ d, d ∈ segDirs comps parent → d ∈ (mkdirChain st comps parent).1) :=
  ⟨mkdirChain_idem comps parent st,
    fun d => mkdirChain_created_fresh comps parent st d,
    fun d => mkdirChain_complete comps parent st d⟩

/-- Witness for C7 on the nested path with components a, b over the
empty remote state. -/
theorem mkdir_chain_idempotent_witness :
    mkdirChain (mkdirChain [] ["a", "b"] none).1 ["a", "b"] none =
      ((mkdirChain [] ["a", "b"] none).1, []) ∧
    ("a" : String) ∉ ([] : List String) :=
  ⟨(mkdir_chain_idempotent [] ["a", "b"] none).1,
    (mkdir_chain_idempotent [] ["a", "b"] none).2.1 "a" (by decide)⟩

/-- Pieces of a byte sequence as Python binary-file iteration yields
them in the loop "for data in local_fh" of sftp_put (line 349): split
after every newline byte, separators kept, the final separator-free
piece kept, nothing for an empty file. -/
def fileLinesAux : List Nat → List Nat → List (List Nat)
  | acc, [] => if acc = [] then [] else [acc.reverse]
  | acc, b :: bs =>
    if b = 10 then (acc.reverse ++ [10]) :: fileLinesAux [] bs
    else fileLinesAux (b :: acc) bs

/-- The chunk sequence the local read loop of sftp_put writes. -/
def fileLines (content : List Nat) : List (List Nat) := fileLinesAux [] content

theorem join_fileLinesAux (l : List Nat) :
    ∀ acc, (fileLinesAux acc l).flatten = acc.reverse ++ l := by
  induction l with
  | nil =>
    intro acc
    by_cases h : acc = []
    · simp [fileLinesAux, h]
    · simp [fileLinesAux, h]
  | cons b bs ih =>
    intro acc
    by_cases hb : b = 10
    · subst hb
      simp [fileLinesAux, ih]
    · simp [fileLinesAux, hb, ih]

/-- Chunks of remote content as iterating the remote read handle yields
them in the loop "for size, data in remote_fh" of sftp_get (line 469):
successive engine-sized chunks; the guard for a zero chunk size only
makes the definition total, the engine size being positive. -/
def readChunks (k : Nat) (l : List Nat) : List (List Nat) :=
  if h1 : l = [] then []
  else if h2 : k = 0 then [l]
  else l.take k :: readChunks k (l.drop k)
termination_by l.length
decreasing_by
  simp only [List.length_drop]
  have h0 : 0 < l.length := List.length_pos.mpr h1
  omega

theorem join_readChunks (k : Nat) (l : List Nat) :
    (readChunks k l).flatten = l := by
  rw [readChunks]
  by_cases h1 : l = []
  · simp [h1]
  · rw [dif_neg h1]
    by_cases h2 : k = 0
    · simp [h2]
    · rw [dif_neg h2]
      rw [List.flatten_cons, join_readChunks k (l.drop k)]
      exact List.take_append_drop k l
termination_by l.length
decreasing_by
  simp only [List.length_drop]
  have h0 : 0 < l.length := List.length_pos.mpr h1
  omega

/-- Remote filesystem contents: the byte content of each remote path
that exists. -/
def RemoteFs := String → Option (List Nat)

theorem foldl_append_eq_join (L : List (List Nat)) :
    ∀ acc : List Nat, L.foldl (fun a d => a ++ d) acc = acc ++ L.flatten := by
  induction L with
  | nil =>
    intro acc
    simp
  | cons d ds ih =>
    intro acc
    simp [ih]

/-- Embedding of sftp_put (lines 339-354) for a single file over an
error-free engine: the remote handle is opened with the create, write
and truncate flags, so the destination content starts empty, and the
local file is streamed piece by piece, each piece appended by the
remote write. -/
def sftp_put (fs : RemoteFs) (remoteFile : String) (localContent : List Nat) :
    RemoteFs :=
  fun p =>
    if p = remoteFile then
      some ((fileLines localContent).foldl (fun a d => a ++ d) [])
    else fs p

/-- Embedding of sftp_get (lines 465-474) for a single file over an
error-free engine: the local file is opened for truncating write and
the remote handle is streamed chunk by chunk, each chunk appended by
the local write. -/
def sftp_get (fs : RemoteFs) (chunkSize : Nat) (remoteFile : String) :
    Option (List Nat) :=
  match fs remoteFile with
  | none => none
  | some content =>
    some ((readChunks chunkSize content).foldl (fun a d => a ++ d) [])

/-- C8: for every local content - the empty file, one byte, multiples
of the chunk size or any other size - a put to a remote path followed
by a get of that path over an error-free engine reproduces the content
byte for byte, whatever chunk size the read handle yields. -/
theorem sftp_put_get_roundtrip (fs : RemoteFs) (remoteFile : String)
    (localContent : List Nat) (chunkSize : Nat) :
    sftp_get (sftp_put fs remoteFile localContent) chunkSize remoteFile =
      some localContent := by
  have h1 : (fileLines localContent).foldl (fun a d => a ++ d) [] = localContent := by
    rw [foldl_append_eq_join]
    simp [fileLines, join_fileLinesAux]
  have h2 : (readChunks chunkSize localContent).foldl (fun a d => a ++ d) [] =
      localContent := by
    rw [foldl_append_eq_join]
    simp [join_readChunks]
  simp [sftp_get, sftp_put, h1, h2]

/-- Python truthiness of an optional string argument: absent and empty
are falsy. -/
def truthy (o : Option String) : Bool :=
  match o with
  | none => false
  | some s => !s.isEmpty

/-- Embedding of the command composition of run_command (lines
259-274): the fast path uses the command verbatim when none of sudo,
user, shell is truthy; else a sudo piece - "sudo -S " when sudo is set
with no user, "sudo -u <user> -S " when a user is given, empty
otherwise - followed by the shell override with the quoted command, or
by the default shell invocation. -/
def composedCommand (command : String) (useSudo : Bool) (user shell : Option String) :
    String :=
  if !useSudo && !truthy user && !truthy shell then command
  else
    let sudoPart :=
      if useSudo && !truthy user then "sudo -S "
      else if truthy user then "sudo -u " ++ user.getD "" ++ " -S "
      else ""
    if truthy shell then sudoPart ++ shell.getD "" ++ " \"" ++ command ++ "\""
    else sudoPart ++ "$SHELL -c \"" ++ command ++ "\""

/-- C9: the executed command string equals the composition the
specification gives, case by case: verbatim when none of sudo, user,
shell is requested; else the piece "sudo -S " when sudo is set without
a user, or "sudo -u <user> -S " when a user is given, followed by the
shell override and the quoted command when a shell is given, or by the
default shell invocation otherwise.  An empty string argument counts as
not given, matching the truthiness tests of the source. -/
theorem run_command_composition (command : String) (useSudo : Bool)
    (user shell : Option String) :
    (useSudo = false → truthy user = false → truthy shell = false →
      composedCommand command useSudo user shell = command)
    ∧ (useSudo = true → truthy user = false → truthy shell = false →
      composedCommand command useSudo user shell =
        "sudo -S $SHELL -c \"" ++ command ++ "\"")
    ∧ (∀ s, useSudo = true → truthy user = false → shell = some s → s ≠ "" →
      composedCommand command useSudo user shell =
        "sudo -S " ++ s ++ " \"" ++ command ++ "\"")
    ∧ (∀ u, user = some u → u ≠ "" → truthy shell = false →
      composedCommand command useSudo user shell =
        "sudo -u " ++ u ++ " -S $SHELL -c \"" ++ command ++ "\"")
    ∧ (∀ u s, user = some u → u ≠ "" → shell = some s → s ≠ "" →
      composedCommand command useSudo user shell =
        "sudo -u " ++ u ++ " -S " ++ s ++ " \"" ++ command ++ "\"")
    ∧ (useSudo = false → truthy user = false → ∀ s, shell = some s → s ≠ "" →
      composedCommand command useSudo user shell = s ++ " \"" ++ command ++ "\"") := by
  have hnon : ∀ t : String, t ≠ "" → truthy (some t) = true := by
    intro t ht
    have hte : t.isEmpty = false := by
      cases hb : t.isEmpty
      · rfl
      · exact absurd ((String.isEmpty_iff t).mp hb) ht
    simp [truthy, hte]
  refine ⟨?_, ?_, ?_, ?_, ?_, ?_⟩
  · intro hs hu hsh
    simp [composedCommand, hs, hu, hsh]
  · intro hs hu hsh
    simp [composedCommand, hs, hu, hsh]
  · intro s hs hu hsh hne
    subst hs hsh
    simp [composedCommand, hu, hnon s hne]
  · intro u hu hne hsh
    subst hu
    simp [composedCommand, hnon u hne, hsh]
    rw [String.append_assoc ("sudo -u " ++ u) " -S " "$SHELL -c \""]
    have hlit : (" -S " : String) ++ "$SHELL -c \"" = " -S $SHELL -c \"" := rfl
    rw [hlit]
  · intro u s hu hne hs hsne
    subst hu hs
    simp [composedCommand, hnon u hne, hnon s hsne]
  · intro hs hu s hsh hne
    subst hs hsh
    simp [composedCommand, hu, hnon s hne, String.empty_append]

/-- Witness for C9: sudo with an explicit user and no shell override. -/
theorem run_command_composition_witness :
    composedCommand "ls" true (some "bob") none =
      "sudo -u bob -S $SHELL -c \"ls\"" :=
  (run_command_composition "ls" true (some "bob") none).2.2.2.1 "bob" rfl
    (by decide) rfl
